import Mathlib

/-!
Verification development for the rule-based content moderation engine.

The definitions below are a shallow embedding of the engine's core:
the two-phase rule search (indexed keyword/phrase retrieval plus regex
evaluation), match aggregation, the severity scorer, the action decider,
explanation synthesis, and the orchestrator's failure handling.
Python floats are modelled as rationals, Python ints as integers, and the
collaborator calls (full-text search, regex engine) as explicit oracle
parameters.
-/

namespace Moderation

/-- Pattern types of a rule, mirroring models.PatternType. -/
inductive PatternType where
  | keyword
  | regex
  | phrase
deriving DecidableEq, Repr, Inhabited

/-- Moderation actions, mirroring models.Action. -/
inductive Action where
  | flag
  | review
  | block
deriving DecidableEq, Repr, Inhabited

/-- A stored moderation rule: the columns of the rules table selected by
search_content together with the is_active gate, mirroring models.Rule
plus the database id. -/
structure Rule where
  id : Int
  pattern : String
  pattern_type : PatternType
  category : String
  severity : Int
  action : Action
  description : Option String
  is_active : Bool
deriving DecidableEq, Repr, Inhabited

/-- A matched rule produced by aggregation, mirroring models.MatchedRule:
a projection of a Rule plus a match_count. -/
structure MatchedRule where
  rule_id : Int
  pattern : String
  category : String
  severity : Int
  action : Action
  description : Option String
  match_count : Int
deriving DecidableEq, Repr, Inhabited

/-- Projection of a rule row into a matched-rule record with the given
match_count, as performed by the aggregation loop in
DatabaseManager.search_content. -/
def mkMatched (r : Rule) (mc : Int) : MatchedRule :=
  { rule_id := r.id, pattern := r.pattern, category := r.category,
    severity := r.severity, action := r.action,
    description := r.description, match_count := mc }

/-! ## Severity scorer (RuleFilter._calculate_severity) -/

/-- Python max over the severities of a nonempty list of matches
(0 on the empty list, which the scorer never reaches). -/
def maxSeverity (l : List MatchedRule) : Int :=
  match l with
  | [] => 0
  | r :: rs => rs.foldl (fun a m => max a m.severity) r.severity

/-- The frequency penalty: sum over matches of (match_count - 1) * 0.2. -/
def frequency_penalty (l : List MatchedRule) : Rat :=
  (l.map (fun r => ((r.match_count - 1 : Int) : Rat) * 0.2)).sum

/-- The context bonus: 0.5 when the list of matches has more than one
element, else 0. -/
def context_bonus (l : List MatchedRule) : Rat :=
  if 1 < l.length then 0.5 else 0

/-- RuleFilter._calculate_severity: 0 on the empty list, otherwise
min(base + context_bonus + frequency_penalty, 3.0) where base is the
highest severity among the matches. -/
def calculate_severity (l : List MatchedRule) : Rat :=
  if l = [] then 0
  else
    let base : Rat := (maxSeverity l : Rat)
    min (base + context_bonus l + frequency_penalty l) 3

/-! ## Action decider (RuleFilter._determine_action) -/

/-- RuleFilter._determine_action: threshold bands over the score. -/
def determine_action (score : Rat) : Action :=
  if score = 0 then Action.review
  else if score < 1 then Action.review
  else if score < 2 then Action.flag
  else Action.block

/-! ## Explanation synthesis (RuleFilter._generate_explanation) -/

/-- The Python dict insertion-order key set: append a category if not yet
present, as the grouping loop in _generate_explanation does. -/
def insertKey (ks : List String) (c : String) : List String :=
  if c ∈ ks then ks else ks ++ [c]

/-- First-seen order of the categories of the matched rules, mirroring
the keys of the categories dict built by _generate_explanation. -/
def categoryKeys (l : List MatchedRule) : List String :=
  l.foldl (fun ks r => insertKey ks r.category) []

/-- The rules grouped under one category, in iteration order, mirroring
the values appended to categories[category]. -/
def categoryRules (l : List MatchedRule) (c : String) : List MatchedRule :=
  l.filter (fun r => r.category = c)

/-- Python truthiness of rule.description or rule.pattern: the description
when present and non-empty, otherwise the pattern. -/
def descriptionOrPattern (r : MatchedRule) : String :=
  match r.description with
  | some d => if d = "" then r.pattern else d
  | none => r.pattern

/-- The severity-context sentence appended by _generate_explanation. -/
def severitySentence (score : Rat) : String :=
  if 2.5 ≤ score then "This represents a severe violation requiring immediate action."
  else if 1.5 ≤ score then "This represents a moderate violation requiring review."
  else "This represents a mild violation that may need attention."

/-- The action-explanation sentence appended by _generate_explanation. -/
def actionSentence (a : Action) : String :=
  if a = Action.block then "Content has been blocked due to policy violations."
  else if a = Action.flag then "Content has been flagged for moderator review."
  else "Content has been marked for review."

/-- RuleFilter._generate_explanation: the deterministic rationale built
from the matched rules, the score and the action. -/
def generate_explanation (matched_rules : List MatchedRule) (score : Rat)
    (action : Action) : String :=
  if matched_rules = [] then
    "Content appears to be safe and follows community guidelines."
  else
    let cats := categoryKeys matched_rules
    let headline :=
      if cats.length = 1 then
        let category := cats.headD ""
        let rules := categoryRules matched_rules category
        if rules.length = 1 then
          "Content flagged for " ++ category ++ ": "
            ++ descriptionOrPattern (rules.headD default)
        else
          "Content flagged for multiple " ++ category ++ " violations ("
            ++ toString rules.length ++ " rules matched)"
      else
        "Content flagged for multiple violation categories: "
          ++ String.intercalate ", " cats
    String.intercalate " " [headline, severitySentence score, actionSentence action]

/-! ## Orchestrator (RuleFilter.analyze_content) -/

/-- The dict returned by analyze_content. -/
structure AnalysisResult where
  score : Rat
  action : Action
  matched_rules : List MatchedRule
  processing_time_ms : Int
  explanation : String
deriving DecidableEq, Repr

/-- RuleFilter.analyze_content, with the collaborator search call modelled
as an Except value (error when any step of the guarded pipeline raises)
and the wall-clock elapsed milliseconds as a parameter. -/
def analyze_content (searchResult : Except String (List MatchedRule))
    (elapsed_ms : Int) : AnalysisResult :=
  match searchResult with
  | Except.ok matched_rules =>
    let final_score := calculate_severity matched_rules
    let action := determine_action final_score
    let explanation := generate_explanation matched_rules final_score action
    { score := final_score, action := action, matched_rules := matched_rules,
      processing_time_ms := elapsed_ms, explanation := explanation }
  | Except.error e =>
    { score := 0, action := Action.review, matched_rules := [],
      processing_time_ms := elapsed_ms,
      explanation := "Analysis failed: " ++ e }

/-! ## Two-phase search and aggregation (DatabaseManager.search_content)

The full-text index and the regex engine are collaborators: they are
modelled as oracle parameters. ftsMatch decides whether a pattern's
search vector matches the content under plainto_tsquery; regexTest
returns none when re.search raises re.error on the pattern, and
some b when the pattern compiles and b says whether it matched. -/

/-- The keyword/phrase phase: active rules of indexed pattern types whose
pattern matches the content under the full-text oracle. -/
def keyword_matches (db : List Rule) (content : String)
    (ftsMatch : String → String → Bool) : List Rule :=
  db.filter (fun r => r.is_active
    ∧ (r.pattern_type = PatternType.keyword ∨ r.pattern_type = PatternType.phrase)
    ∧ ftsMatch r.pattern content)

/-- The active regex rules enumerated for the second phase. -/
def regex_rules (db : List Rule) : List Rule :=
  db.filter (fun r => r.is_active ∧ r.pattern_type = PatternType.regex)

/-- One step of the regex evaluation loop: on some true append the rule to
the matches, on some false skip it, on none (re.error) record the warning
the logger emits and skip the rule. -/
def regexEvalStep (content : String) (regexTest : String → String → Option Bool)
    (acc : List Rule × List String) (r : Rule) : List Rule × List String :=
  match regexTest r.pattern content with
  | some true => (acc.1 ++ [r], acc.2)
  | some false => acc
  | none => (acc.1, acc.2 ++ ["Invalid regex pattern: " ++ r.pattern])

/-- The regex evaluation loop of search_content: the rules that matched,
together with the warnings logged for invalid patterns. -/
def regexEval (rules : List Rule) (content : String)
    (regexTest : String → String → Option Bool) : List Rule × List String :=
  rules.foldl (regexEvalStep content regexTest) ([], [])

/-- Increment the match_count of the first (and in the aggregation
invariant, only) entry with the given rule id. -/
def bumpCount (id : Int) : List MatchedRule → List MatchedRule
  | [] => []
  | m :: ms =>
    if m.rule_id = id then { m with match_count := m.match_count + 1 } :: ms
    else m :: bumpCount id ms

/-- One step of the deduplication loop of search_content: first sighting
of a rule id inserts a MatchedRule with match_count 1, a repeat
increments its match_count. -/
def aggregateStep (acc : List MatchedRule) (r : Rule) : List MatchedRule :=
  if acc.any (fun m => m.rule_id = r.id) then bumpCount r.id acc
  else acc ++ [mkMatched r 1]

/-- The deduplication of search_content over the combined match sequence,
in dict insertion order. -/
def aggregate (l : List Rule) : List MatchedRule :=
  l.foldl aggregateStep []

/-- DatabaseManager.search_content: keyword/phrase phase, regex phase,
then aggregation of the concatenated matches. -/
def search_content (db : List Rule) (content : String)
    (ftsMatch : String → String → Bool)
    (regexTest : String → String → Option Bool) : List MatchedRule :=
  aggregate (keyword_matches db content ftsMatch
    ++ (regexEval (regex_rules db) content regexTest).1)

/-- The match_count stored for a rule id by the aggregation, 0 when the
id was never seen. -/
def countOf (agg : List MatchedRule) (id : Int) : Int :=
  match agg.find? (fun m => m.rule_id = id) with
  | some m => m.match_count
  | none => 0

/-! ## ModerationResult construction (models.ModerationResult) -/

/-- The fields of models.ModerationResult relevant to validation
(timestamp omitted: it is a creation instant default). -/
structure ModerationResult where
  post_id : String
  content : String
  score : Rat
  action : Action
  matched_rules : List MatchedRule
  processing_time_ms : Int
  explanation : String
deriving DecidableEq, Repr

/-- The action validator of models.ModerationResult: with a validated
score in values it recomputes the action from the score, ignoring the
supplied value. -/
def validator_action (score : Rat) (v : Action) : Action :=
  if score = 0 then Action.review
  else if score < 1 then Action.review
  else if score < 2 then Action.flag
  else Action.block

/-- Pydantic construction of a ModerationResult: the score field carries
ge=0 and le=3 constraints, and on success the action validator replaces
the supplied action by the threshold function of the validated score. -/
def mkModerationResult (post_id content : String) (score : Rat) (action : Action)
    (matched_rules : List MatchedRule) (processing_time_ms : Int)
    (explanation : String) : Option ModerationResult :=
  if 0 ≤ score ∧ score ≤ 3 then
    some { post_id := post_id, content := content, score := score,
           action := validator_action score action,
           matched_rules := matched_rules,
           processing_time_ms := processing_time_ms,
           explanation := explanation }
  else none

/-! ## Spec-side definitions, for refinement statements -/

/-- The number of distinct rule ids among the matches. -/
def distinctRuleCount (l : List MatchedRule) : Nat :=
  ((l.map (fun r => r.rule_id)).dedup).length

/-- The severity score exactly as the specification claim words it: base
is the maximum severity, the context bonus fires when more than one
DISTINCT rule matched, the frequency penalty sums (match_count - 1) * 0.2,
and the total is capped at 3.0. -/
def claim_calculate_severity (l : List MatchedRule) : Rat :=
  if l = [] then 0
  else
    min ((maxSeverity l : Rat)
      + (if 1 < distinctRuleCount l then 0.5 else 0)
      + frequency_penalty l) 3

/-- The severity score as the amended claim words it: identical to the
claim except that the context bonus fires when the match list contains
more than one entry. -/
def amended_calculate_severity (l : List MatchedRule) : Rat :=
  if l = [] then 0
  else
    min ((maxSeverity l : Rat)
      + (if 1 < l.length then 0.5 else 0)
      + frequency_penalty l) 3

/-- A match list containing the same rule entry twice: one distinct rule,
two list entries. -/
def dupMatch : MatchedRule :=
  { rule_id := 1, pattern := "x", category := "c", severity := 2,
    action := Action.flag, description := none, match_count := 1 }

/-! ## C1 -/

/-- C1 counterexample: on the two-element list repeating the same rule
(one distinct rule id), the code applies the 0.5 context bonus because
the LIST has more than one element, scoring 2.5, while the claim's
formula, whose bonus fires only when more than one DISTINCT rule
matched, yields 2.0. -/
theorem C1_claim_counterexample :
    calculate_severity [dupMatch, dupMatch]
      ≠ claim_calculate_severity [dupMatch, dupMatch] := by
  have hl : calculate_severity [dupMatch, dupMatch] = 2.5 := by
    unfold calculate_severity
    rw [if_neg (List.cons_ne_nil _ _)]
    norm_num [maxSeverity, context_bonus, frequency_penalty, dupMatch, min_def]
  have hr : claim_calculate_severity [dupMatch, dupMatch] = 2 := by
    unfold claim_calculate_severity
    rw [if_neg (List.cons_ne_nil _ _)]
    norm_num [maxSeverity, distinctRuleCount, frequency_penalty, dupMatch,
      List.dedup_cons_of_mem, min_def]
  rw [hl, hr]; norm_num

/-- C1 (amended): the severity scorer sends the empty list to 0.0 and
every non-empty list to min(base + context_bonus + frequency_penalty, 3.0),
where the context bonus is 0.5 when the list has more than one ENTRY, and
no input list of matches produces a score above 3.0. -/
theorem C1_severity_formula (l : List MatchedRule) :
    calculate_severity l = amended_calculate_severity l
      ∧ calculate_severity l ≤ 3 := by
  constructor
  · rfl
  · unfold calculate_severity
    split
    · norm_num
    · exact min_le_right _ _

/-- C1 witness: the amended formula and the cap, evaluated on the
concrete duplicated list. -/
theorem C1_severity_formula_witness :
    calculate_severity [dupMatch, dupMatch]
        = amended_calculate_severity [dupMatch, dupMatch]
      ∧ calculate_severity [dupMatch, dupMatch] ≤ 3 :=
  C1_severity_formula [dupMatch, dupMatch]

/-! ## C2 -/

/-- C2: the action decider is total on [0, 3.0] with exhaustive,
non-overlapping bands: 0 and the open interval (0,1) give review,
[1,2) gives flag, [2,∞) gives block, and every score yields exactly one
of the three actions. -/
theorem C2_action_bands (s : Rat) (h0 : 0 ≤ s) (h3 : s ≤ 3) :
    (s = 0 → determine_action s = Action.review)
      ∧ (0 < s → s < 1 → determine_action s = Action.review)
      ∧ (1 ≤ s → s < 2 → determine_action s = Action.flag)
      ∧ (2 ≤ s → determine_action s = Action.block)
      ∧ (determine_action s = Action.review ∨ determine_action s = Action.flag
          ∨ determine_action s = Action.block) := by
  refine ⟨fun h => ?_, fun h1 h2 => ?_, fun h1 h2 => ?_, fun h => ?_, ?_⟩
  · unfold determine_action
    rw [if_pos h]
  · unfold determine_action
    rw [if_neg (ne_of_gt h1), if_pos h2]
  · unfold determine_action
    have hne : s ≠ 0 := ne_of_gt (lt_of_lt_of_le one_pos h1)
    rw [if_neg hne, if_neg (not_lt.mpr h1), if_pos h2]
  · unfold determine_action
    have h1 : (1 : Rat) ≤ s := le_trans (by norm_num) h
    have hne : s ≠ 0 := ne_of_gt (lt_of_lt_of_le one_pos h1)
    rw [if_neg hne, if_neg (not_lt.mpr h1), if_neg (not_lt.mpr h)]
  · unfold determine_action
    split_ifs
    · exact Or.inl rfl
    · exact Or.inl rfl
    · exact Or.inr (Or.inl rfl)
    · exact Or.inr (Or.inr rfl)

/-- C2 witness: the flag band at the concrete score 3/2. -/
theorem C2_action_bands_witness : determine_action (3/2) = Action.flag :=
  (C2_action_bands (3/2) (by norm_num) (by norm_num)).2.2.1
    (by norm_num) (by norm_num)

/-! ## C3 -/

/-- C3: when any step of the guarded pipeline raises (modelled by the
error case of the search result), analyze_content returns score 0,
action review, no matched rules, an explanation naming the failure
reason, and the elapsed processing time; no exception escapes. -/
theorem C3_degraded_result (msg : String) (t : Int) :
    analyze_content (Except.error msg) t
      = { score := 0, action := Action.review, matched_rules := [],
          processing_time_ms := t,
          explanation := "Analysis failed: " ++ msg } :=
  rfl

/-! ## Helper lemmas on fold-max and the scorer bounds -/

lemma le_foldl_max (xs : List Int) (a : Int) : a ≤ xs.foldl max a := by
  induction xs generalizing a with
  | nil => exact le_refl a
  | cons x xs ih => exact le_trans (le_max_left a x) (ih (max a x))

lemma foldl_max_mono (xs : List Int) {a b : Int} (h : a ≤ b) :
    xs.foldl max a ≤ xs.foldl max b := by
  induction xs generalizing a b with
  | nil => exact h
  | cons x xs ih => exact ih (max_le_max h (le_refl x))

lemma foldl_max_le (xs : List Int) {a c : Int} (ha : a ≤ c)
    (h : ∀ x ∈ xs, x ≤ c) : xs.foldl max a ≤ c := by
  induction xs generalizing a with
  | nil => exact ha
  | cons x xs ih =>
    exact ih (max_le ha (h x (List.mem_cons_self x xs)))
      (fun y hy => h y (List.mem_cons_of_mem x hy))

lemma maxSeverity_eq_fold (l : List MatchedRule) :
    maxSeverity l = match l.map (fun r => r.severity) with
      | [] => 0
      | x :: xs => xs.foldl max x := by
  cases l with
  | nil => rfl
  | cons r rs => simp [maxSeverity, List.foldl_map]

lemma head_severity_le_maxSeverity (r : MatchedRule) (rs : List MatchedRule) :
    r.severity ≤ maxSeverity (r :: rs) := by
  rw [maxSeverity_eq_fold]
  simpa using le_foldl_max (rs.map (fun m => m.severity)) r.severity

lemma frequency_penalty_nonneg (l : List MatchedRule)
    (h : ∀ r ∈ l, 1 ≤ r.match_count) : 0 ≤ frequency_penalty l := by
  apply List.sum_nonneg
  intro x hx
  rcases List.mem_map.mp hx with ⟨r, hr, hrx⟩
  have h1 : (1 : Int) ≤ r.match_count := h r hr
  have : (0 : Rat) ≤ ((r.match_count - 1 : Int) : Rat) := by
    have : (0 : Int) ≤ r.match_count - 1 := by omega
    exact_mod_cast this
  rw [← hrx]
  positivity

lemma context_bonus_nonneg (l : List MatchedRule) : 0 ≤ context_bonus l := by
  unfold context_bonus
  split <;> norm_num

/-! ## C7 -/

/-- C7: pydantic construction with a valid score stores the threshold
action computed from the score, whatever action was supplied: the
construction result is independent of the supplied action and its stored
action equals the deciders threshold function of the score. -/
theorem C7_action_function_of_score (p c e : String) (s : Rat) (a b : Action)
    (mr : List MatchedRule) (t : Int) (h0 : 0 ≤ s) (h3 : s ≤ 3) :
    (∀ res, mkModerationResult p c s a mr t e = some res
        → res.action = determine_action s)
      ∧ mkModerationResult p c s a mr t e = mkModerationResult p c s b mr t e
      ∧ (∃ res, mkModerationResult p c s a mr t e = some res) := by
  refine ⟨?_, rfl, ?_⟩
  · intro res hres
    rw [mkModerationResult, if_pos ⟨h0, h3⟩] at hres
    cases hres
    rfl
  · exact ⟨_, by rw [mkModerationResult, if_pos ⟨h0, h3⟩]⟩

/-- C7 witness: at score 5/2 with supplied actions review and flag, the
stored action is the threshold action of the score. -/
theorem C7_action_function_of_score_witness :
    (∀ res, mkModerationResult "p1" "text" (5/2) Action.review [] 4 "expl"
        = some res → res.action = determine_action (5/2))
      ∧ mkModerationResult "p1" "text" (5/2) Action.review [] 4 "expl"
          = mkModerationResult "p1" "text" (5/2) Action.flag [] 4 "expl"
      ∧ (∃ res, mkModerationResult "p1" "text" (5/2) Action.review [] 4 "expl"
          = some res) :=
  C7_action_function_of_score "p1" "text" "expl" (5/2) Action.review Action.flag
    [] 4 (by norm_num) (by norm_num)

/-! ## C10 -/

/-- C10: when every matched rule carries a severity in {1,2,3} and a
match_count of at least 1, a non-empty match list scores at least 1, the
score is never strictly between 0 and 1, and the decided action is
review exactly when no rules matched. -/
theorem C10_review_iff_no_match (l : List MatchedRule)
    (hsev : ∀ r ∈ l, 1 ≤ r.severity ∧ r.severity ≤ 3)
    (hmc : ∀ r ∈ l, 1 ≤ r.match_count) :
    (l ≠ [] → 1 ≤ calculate_severity l)
      ∧ (calculate_severity l = 0 ∨ 1 ≤ calculate_severity l)
      ∧ (determine_action (calculate_severity l) = Action.review ↔ l = []) := by
  have hscore : l ≠ [] → 1 ≤ calculate_severity l := by
    intro hne
    unfold calculate_severity
    rw [if_neg hne]
    apply le_min _ (by norm_num)
    have hbase : (1 : Int) ≤ maxSeverity l := by
      cases l with
      | nil => exact absurd rfl hne
      | cons r rs =>
        exact le_trans (hsev r (List.mem_cons_self r rs)).1
          (head_severity_le_maxSeverity r rs)
    have hbase' : (1 : Rat) ≤ (maxSeverity l : Rat) := by exact_mod_cast hbase
    have hb := context_bonus_nonneg l
    have hp := frequency_penalty_nonneg l hmc
    linarith
  refine ⟨hscore, ?_, ?_⟩
  · by_cases hne : l = []
    · exact Or.inl (by rw [hne]; rfl)
    · exact Or.inr (hscore hne)
  · constructor
    · intro hrev
      by_contra hne
      have h1 := hscore hne
      have hne0 : calculate_severity l ≠ 0 := by
        intro h0
        rw [h0] at h1
        norm_num at h1
      have hnlt : ¬ calculate_severity l < 1 := not_lt.mpr h1
      unfold determine_action at hrev
      rw [if_neg hne0, if_neg hnlt] at hrev
      split at hrev <;> simp_all
    · intro hnil
      rw [hnil]
      rfl

/-- C10 witness: a single severity-2 match yields a non-review action,
and the empty list yields review. -/
theorem C10_review_iff_no_match_witness :
    determine_action (calculate_severity [dupMatch]) ≠ Action.review := by
  have h := C10_review_iff_no_match [dupMatch]
    (by intro r hr; rw [List.mem_singleton] at hr; rw [hr]; exact ⟨by norm_num [dupMatch], by norm_num [dupMatch]⟩)
    (by intro r hr; rw [List.mem_singleton] at hr; rw [hr]; norm_num [dupMatch])
  intro hc
  exact (List.cons_ne_nil dupMatch []) (h.2.2.mp hc)

/-! ## Helper lemmas for scorer monotonicity -/

lemma frequency_penalty_cons (m : MatchedRule) (l : List MatchedRule) :
    frequency_penalty (m :: l)
      = ((m.match_count - 1 : Int) : Rat) * 0.2 + frequency_penalty l := by
  simp [frequency_penalty]

lemma frequency_penalty_append (l₁ l₂ : List MatchedRule) :
    frequency_penalty (l₁ ++ l₂) = frequency_penalty l₁ + frequency_penalty l₂ := by
  simp [frequency_penalty]

lemma context_bonus_le_half (l : List MatchedRule) : context_bonus l ≤ 0.5 := by
  unfold context_bonus
  split <;> norm_num

lemma maxSeverity_cons_le (m x : MatchedRule) (xs : List MatchedRule) :
    maxSeverity (x :: xs) ≤ maxSeverity (m :: x :: xs) := by
  rw [maxSeverity_eq_fold, maxSeverity_eq_fold]
  simp only [List.map_cons]
  calc (xs.map (fun r => r.severity)).foldl max x.severity
      ≤ (xs.map (fun r => r.severity)).foldl max (max m.severity x.severity) :=
        foldl_max_mono _ (le_max_right _ _)
    _ = _ := rfl

lemma maxSeverity_congr_severities {l l' : List MatchedRule}
    (h : l.map (fun r => r.severity) = l'.map (fun r => r.severity)) :
    maxSeverity l = maxSeverity l' := by
  rw [maxSeverity_eq_fold, maxSeverity_eq_fold, h]

/-! ## C6 -/

/-- C6: the severity scorer is monotonic: prepending a match whose
severity dominates the list (with match_count at least 1) never decreases
the score, and incrementing the match_count of an existing match never
decreases the score. -/
theorem C6_score_monotone :
    (∀ (l : List MatchedRule) (m : MatchedRule), 1 ≤ m.match_count
      → 0 ≤ m.severity → (∀ r ∈ l, r.severity ≤ m.severity)
      → calculate_severity l ≤ calculate_severity (m :: l))
    ∧ (∀ (l₁ l₂ : List MatchedRule) (r : MatchedRule),
        calculate_severity (l₁ ++ r :: l₂)
          ≤ calculate_severity
              (l₁ ++ { r with match_count := r.match_count + 1 } :: l₂)) := by
  constructor
  · intro l m hmc hsev hall
    have hpenm : (0 : Rat) ≤ ((m.match_count - 1 : Int) : Rat) * 0.2 := by
      have : (0 : Int) ≤ m.match_count - 1 := by omega
      have h' : (0 : Rat) ≤ ((m.match_count - 1 : Int) : Rat) := by exact_mod_cast this
      positivity
    cases l with
    | nil =>
      unfold calculate_severity
      rw [if_pos rfl, if_neg (List.cons_ne_nil _ _)]
      apply le_min _ (by norm_num)
      have hbase : (0 : Rat) ≤ (maxSeverity [m] : Rat) := by
        have : maxSeverity [m] = m.severity := rfl
        rw [this]; exact_mod_cast hsev
      have hbon := context_bonus_nonneg [m]
      have hpen : (0 : Rat) ≤ frequency_penalty [m] := by
        rw [frequency_penalty_cons]
        simp only [frequency_penalty, List.map_nil, List.sum_nil]
        linarith
      linarith
    | cons x xs =>
      unfold calculate_severity
      rw [if_neg (List.cons_ne_nil _ _), if_neg (List.cons_ne_nil _ _)]
      apply min_le_min _ (le_refl 3)
      have hbase : (maxSeverity (x :: xs) : Rat) ≤ (maxSeverity (m :: x :: xs) : Rat) := by
        exact_mod_cast maxSeverity_cons_le m x xs
      have hbon : context_bonus (x :: xs) ≤ context_bonus (m :: x :: xs) := by
        have h2 : context_bonus (m :: x :: xs) = 0.5 := by
          unfold context_bonus
          rw [if_pos (by simp)]
        rw [h2]
        exact context_bonus_le_half _
      have hpen : frequency_penalty (x :: xs) ≤ frequency_penalty (m :: x :: xs) := by
        rw [frequency_penalty_cons m (x :: xs)]
        linarith
      linarith
  · intro l₁ l₂ r
    have hne₁ : l₁ ++ r :: l₂ ≠ [] := by simp
    have hne₂ : l₁ ++ { r with match_count := r.match_count + 1 } :: l₂ ≠ [] := by simp
    unfold calculate_severity
    rw [if_neg hne₁, if_neg hne₂]
    apply min_le_min _ (le_refl 3)
    have hmax : maxSeverity (l₁ ++ r :: l₂)
        = maxSeverity (l₁ ++ { r with match_count := r.match_count + 1 } :: l₂) := by
      apply maxSeverity_congr_severities
      simp
    have hlen : (l₁ ++ r :: l₂).length
        = (l₁ ++ { r with match_count := r.match_count + 1 } :: l₂).length := by
      simp
    have hbon : context_bonus (l₁ ++ r :: l₂)
        = context_bonus (l₁ ++ { r with match_count := r.match_count + 1 } :: l₂) := by
      unfold context_bonus
      rw [hlen]
    have hpen : frequency_penalty (l₁ ++ r :: l₂)
        ≤ frequency_penalty (l₁ ++ { r with match_count := r.match_count + 1 } :: l₂) := by
      rw [frequency_penalty_append, frequency_penalty_append,
        frequency_penalty_cons, frequency_penalty_cons]
      have : ((r.match_count - 1 : Int) : Rat) * 0.2
          ≤ ((r.match_count + 1 - 1 : Int) : Rat) * 0.2 := by
        have : ((r.match_count - 1 : Int) : Rat) ≤ ((r.match_count + 1 - 1 : Int) : Rat) := by
          exact_mod_cast by omega
        linarith
      linarith
    rw [hmax, hbon]
    linarith

/-- The dominating match used in the C6 witness. -/
def hiMatch : MatchedRule :=
  { rule_id := 2, pattern := "y", category := "c", severity := 3,
    action := Action.block, description := none, match_count := 1 }

/-- C6 witness: both monotonicity parts evaluated at concrete matches. -/
theorem C6_score_monotone_witness :
    calculate_severity [dupMatch] ≤ calculate_severity [hiMatch, dupMatch]
      ∧ calculate_severity [dupMatch]
        ≤ calculate_severity [{ dupMatch with match_count := dupMatch.match_count + 1 }] :=
  ⟨C6_score_monotone.1 [dupMatch] hiMatch (by norm_num [hiMatch])
      (by norm_num [hiMatch])
      (by intro r hr; rw [List.mem_singleton] at hr; rw [hr]; norm_num [dupMatch, hiMatch]),
    C6_score_monotone.2 [] [] dupMatch⟩

/-! ## Aggregation counting lemmas -/

lemma countOf_nil (id : Int) : countOf [] id = 0 := rfl

lemma countOf_cons (m : MatchedRule) (ms : List MatchedRule) (id : Int) :
    countOf (m :: ms) id
      = if m.rule_id = id then m.match_count else countOf ms id := by
  by_cases h : m.rule_id = id
  · simp [countOf, List.find?_cons, h]
  · simp [countOf, List.find?_cons, h]

lemma countOf_eq_zero {acc : List MatchedRule} {id : Int}
    (h : ∀ m ∈ acc, m.rule_id ≠ id) : countOf acc id = 0 := by
  induction acc with
  | nil => rfl
  | cons m ms ih =>
    rw [countOf_cons, if_neg (h m (List.mem_cons_self m ms))]
    exact ih (fun x hx => h x (List.mem_cons_of_mem m hx))

lemma countOf_bump_self {acc : List MatchedRule} {id : Int}
    (h : ∃ m ∈ acc, m.rule_id = id) :
    countOf (bumpCount id acc) id = countOf acc id + 1 := by
  induction acc with
  | nil => simp at h
  | cons m ms ih =>
    rw [bumpCount]
    by_cases hm : m.rule_id = id
    · rw [if_pos hm, countOf_cons, countOf_cons, if_pos hm, if_pos hm]
    · rw [if_neg hm, countOf_cons, countOf_cons, if_neg hm, if_neg hm]
      apply ih
      rcases h with ⟨x, hx, hxid⟩
      rcases List.mem_cons.mp hx with h1 | h2
      · exact absurd (h1 ▸ hxid) hm
      · exact ⟨x, h2, hxid⟩

lemma countOf_bump_ne (acc : List MatchedRule) {id id' : Int} (h : id' ≠ id) :
    countOf (bumpCount id' acc) id = countOf acc id := by
  induction acc with
  | nil => rfl
  | cons m ms ih =>
    rw [bumpCount]
    by_cases hm : m.rule_id = id'
    · have hmne : m.rule_id ≠ id := fun hc => h (hm ▸ hc)
      rw [if_pos hm, countOf_cons, countOf_cons]
      simp only [hmne, if_false]
    · rw [if_neg hm, countOf_cons, countOf_cons, ih]

lemma countOf_append_of_not {acc : List MatchedRule} {id : Int}
    (h : ∀ m ∈ acc, m.rule_id ≠ id) (l₂ : List MatchedRule) :
    countOf (acc ++ l₂) id = countOf l₂ id := by
  induction acc with
  | nil => rfl
  | cons m ms ih =>
    rw [List.cons_append, countOf_cons,
      if_neg (h m (List.mem_cons_self m ms))]
    exact ih (fun x hx => h x (List.mem_cons_of_mem m hx))

lemma countOf_append_of_mem {acc : List MatchedRule} {id : Int}
    (h : ∃ m ∈ acc, m.rule_id = id) (l₂ : List MatchedRule) :
    countOf (acc ++ l₂) id = countOf acc id := by
  induction acc with
  | nil => simp at h
  | cons m ms ih =>
    rw [List.cons_append, countOf_cons, countOf_cons]
    by_cases hm : m.rule_id = id
    · rw [if_pos hm, if_pos hm]
    · rw [if_neg hm, if_neg hm]
      apply ih
      rcases h with ⟨x, hx, hxid⟩
      rcases List.mem_cons.mp hx with h1 | h2
      · exact absurd (h1 ▸ hxid) hm
      · exact ⟨x, h2, hxid⟩

lemma countOf_aggregateStep (acc : List MatchedRule) (r : Rule) (id : Int) :
    countOf (aggregateStep acc r) id
      = countOf acc id + (if r.id = id then 1 else 0) := by
  unfold aggregateStep
  by_cases hany : ∃ m ∈ acc, m.rule_id = r.id
  · rw [if_pos (by simpa using hany)]
    by_cases hid : r.id = id
    · rw [if_pos hid]
      exact hid ▸ countOf_bump_self hany
    · rw [if_neg hid, countOf_bump_ne acc hid]
      ring
  · have hnone : ∀ m ∈ acc, m.rule_id ≠ r.id := by
      intro m hm hc
      exact hany ⟨m, hm, hc⟩
    rw [if_neg (by simpa using hany)]
    by_cases hid : r.id = id
    · subst hid
      rw [countOf_append_of_not hnone, countOf_cons, countOf_eq_zero hnone]
      simp [mkMatched]
    · by_cases hmem : ∃ m ∈ acc, m.rule_id = id
      · rw [countOf_append_of_mem hmem, if_neg hid]
        ring
      · have h' : ∀ m ∈ acc, m.rule_id ≠ id := by
          intro m hm hc
          exact hmem ⟨m, hm, hc⟩
        rw [countOf_append_of_not h', countOf_cons, countOf_eq_zero h',
          if_neg (by simpa [mkMatched] using hid), countOf_nil, if_neg hid]
        ring

lemma countOf_foldl (l : List Rule) (acc : List MatchedRule) (id : Int) :
    countOf (l.foldl aggregateStep acc) id
      = countOf acc id + (l.countP (fun r => r.id = id) : Int) := by
  induction l generalizing acc with
  | nil => simp
  | cons r rs ih =>
    rw [List.foldl_cons, ih, countOf_aggregateStep, List.countP_cons]
    by_cases hid : r.id = id
    · simp [hid]
      ring
    · simp [hid]

/-! ## C5 -/

/-- C5: aggregation is order-independent: the match_count that the
aggregation assigns to a rule id is the number of occurrences of that id
in the combined input sequence, so any permutation of the input yields
the same mapping from rule id to match_count. -/
theorem C5_aggregate_order_independent :
    (∀ (l : List Rule) (id : Int),
      countOf (aggregate l) id = (l.countP (fun r => r.id = id) : Int))
    ∧ (∀ (l₁ l₂ : List Rule), l₁.Perm l₂
        → ∀ id : Int, countOf (aggregate l₁) id = countOf (aggregate l₂) id) := by
  have hcount : ∀ (l : List Rule) (id : Int),
      countOf (aggregate l) id = (l.countP (fun r => r.id = id) : Int) := by
    intro l id
    rw [aggregate, countOf_foldl, countOf_nil]
    ring
  refine ⟨hcount, ?_⟩
  intro l₁ l₂ hperm id
  rw [hcount, hcount, hperm.countP_eq]

/-- Concrete keyword rule used in witnesses. -/
def ruleA : Rule :=
  { id := 1, pattern := "get rich quick", pattern_type := PatternType.phrase,
    category := "scam", severity := 2, action := Action.flag,
    description := some "Suspicious financial promises", is_active := true }

/-- Concrete regex rule used in witnesses. -/
def ruleB : Rule :=
  { id := 2, pattern := "pump.*dump", pattern_type := PatternType.regex,
    category := "manipulation", severity := 3, action := Action.block,
    description := some "Market manipulation indicators", is_active := true }

/-- C5 witness: a concrete permutation of a three-element match sequence
yields the same match_count for rule id 1. -/
theorem C5_aggregate_order_independent_witness :
    countOf (aggregate [ruleA, ruleB, ruleA]) 1
      = countOf (aggregate [ruleA, ruleA, ruleB]) 1 :=
  C5_aggregate_order_independent.2 [ruleA, ruleB, ruleA] [ruleA, ruleA, ruleB]
    (List.Perm.cons ruleA (List.Perm.swap ruleA ruleB [])) 1

/-! ## Regex evaluation lemmas -/

lemma regexEval_foldl (content : String) (test : String → String → Option Bool)
    (rules : List Rule) (acc : List Rule × List String) :
    (rules.foldl (regexEvalStep content test) acc).1
        = acc.1 ++ rules.filter (fun r => test r.pattern content = some true)
      ∧ (rules.foldl (regexEvalStep content test) acc).2
        = acc.2 ++ (rules.filter (fun r => (test r.pattern content).isNone)).map
            (fun r => "Invalid regex pattern: " ++ r.pattern) := by
  induction rules generalizing acc with
  | nil => simp
  | cons r rs ih =>
    rw [List.foldl_cons]
    rcases ih (regexEvalStep content test acc r) with ⟨ih1, ih2⟩
    cases htest : test r.pattern content with
    | none =>
      refine ⟨?_, ?_⟩
      · rw [ih1]
        simp [regexEvalStep, htest]
      · rw [ih2]
        simp [regexEvalStep, htest]
    | some b =>
      cases b with
      | true =>
        refine ⟨?_, ?_⟩
        · rw [ih1]
          simp [regexEvalStep, htest]
        · rw [ih2]
          simp [regexEvalStep, htest]
      | false =>
        refine ⟨?_, ?_⟩
        · rw [ih1]
          simp [regexEvalStep, htest]
        · rw [ih2]
          simp [regexEvalStep, htest]

lemma regexEval_matches (rules : List Rule) (content : String)
    (test : String → String → Option Bool) :
    (regexEval rules content test).1
      = rules.filter (fun r => test r.pattern content = some true) :=
  (regexEval_foldl content test rules ([], [])).1

lemma regexEval_warnings (rules : List Rule) (content : String)
    (test : String → String → Option Bool) :
    (regexEval rules content test).2
      = (rules.filter (fun r => (test r.pattern content).isNone)).map
          (fun r => "Invalid regex pattern: " ++ r.pattern) :=
  (regexEval_foldl content test rules ([], [])).2

/-! ## C4 -/

/-- C4: an invalid regex pattern is logged as a warning and excluded from
the regex-phase results, while every valid regex rule whose pattern
matches the content is still returned; the evaluation of the whole rule
set is total, so an invalid pattern never aborts classification. -/
theorem C4_invalid_pattern_isolated (rules : List Rule) (content : String)
    (test : String → String → Option Bool) :
    (∀ r ∈ rules, test r.pattern content = none
      → ("Invalid regex pattern: " ++ r.pattern) ∈ (regexEval rules content test).2
        ∧ r ∉ (regexEval rules content test).1)
    ∧ (∀ r ∈ rules, test r.pattern content = some true
        → r ∈ (regexEval rules content test).1) := by
  constructor
  · intro r hr htest
    constructor
    · rw [regexEval_warnings]
      exact List.mem_map_of_mem _
        (List.mem_filter.mpr ⟨hr, by simp [htest]⟩)
    · rw [regexEval_matches]
      intro hmem
      have := List.mem_filter.mp hmem
      simp [htest] at this
  · intro r hr htest
    rw [regexEval_matches]
    exact List.mem_filter.mpr ⟨hr, by simp [htest]⟩

/-- A regex rule whose pattern is syntactically invalid, for the C4
witness. -/
def badRule : Rule :=
  { id := 3, pattern := "bad(", pattern_type := PatternType.regex,
    category := "spam", severity := 1, action := Action.review,
    description := none, is_active := true }

/-- The regex oracle for the C4 witness: the malformed pattern raises,
every other pattern compiles and matches. -/
def witTest : String → String → Option Bool :=
  fun p _ => if p = "bad(" then none else some true

/-- C4 witness: with one invalid pattern among the rules, its warning is
emitted, it is excluded, and the valid matching rule is still returned. -/
theorem C4_invalid_pattern_isolated_witness :
    (("Invalid regex pattern: " ++ badRule.pattern)
        ∈ (regexEval [ruleB, badRule] "post" witTest).2
      ∧ badRule ∉ (regexEval [ruleB, badRule] "post" witTest).1)
    ∧ ruleB ∈ (regexEval [ruleB, badRule] "post" witTest).1 :=
  ⟨(C4_invalid_pattern_isolated [ruleB, badRule] "post" witTest).1 badRule
      (List.mem_cons_of_mem _ (List.mem_cons_self _ _))
      (by simp [witTest, badRule]),
    (C4_invalid_pattern_isolated [ruleB, badRule] "post" witTest).2 ruleB
      (List.mem_cons_self _ _)
      (by simp [witTest, ruleB])⟩

/-! ## Aggregate structural invariants -/

lemma bumpCount_map_rule_id (id : Int) (acc : List MatchedRule) :
    (bumpCount id acc).map (fun m => m.rule_id)
      = acc.map (fun m => m.rule_id) := by
  induction acc with
  | nil => rfl
  | cons m ms ih =>
    rw [bumpCount]
    by_cases hm : m.rule_id = id
    · rw [if_pos hm]
      simp
    · rw [if_neg hm]
      simp [ih]

lemma aggregateStep_map_nodup {acc : List MatchedRule} (r : Rule)
    (h : (acc.map (fun m => m.rule_id)).Nodup) :
    ((aggregateStep acc r).map (fun m => m.rule_id)).Nodup := by
  unfold aggregateStep
  by_cases hany : ∃ m ∈ acc, m.rule_id = r.id
  · rw [if_pos (by simpa using hany), bumpCount_map_rule_id]
    exact h
  · rw [if_neg (by simpa using hany), List.map_append]
    apply ((List.perm_append_singleton _ _).nodup_iff).mpr
    rw [List.nodup_cons]
    refine ⟨?_, h⟩
    intro hc
    rcases List.mem_map.mp hc with ⟨m, hm, hid⟩
    exact hany ⟨m, hm, by simpa [mkMatched] using hid⟩

lemma aggregate_foldl_nodup (l : List Rule) (acc : List MatchedRule)
    (h : (acc.map (fun m => m.rule_id)).Nodup) :
    ((l.foldl aggregateStep acc).map (fun m => m.rule_id)).Nodup := by
  induction l generalizing acc with
  | nil => exact h
  | cons r rs ih => exact ih _ (aggregateStep_map_nodup r h)

lemma aggregate_nodup (l : List Rule) :
    ((aggregate l).map (fun m => m.rule_id)).Nodup :=
  aggregate_foldl_nodup l [] List.nodup_nil

lemma mem_foldl_rule_id (l : List Rule) (acc : List MatchedRule)
    {m : MatchedRule} (hm : m ∈ l.foldl aggregateStep acc) :
    m.rule_id ∈ acc.map (fun x => x.rule_id) ∨ m.rule_id ∈ l.map (fun r => r.id) := by
  induction l generalizing acc with
  | nil => exact Or.inl (List.mem_map_of_mem _ hm)
  | cons r rs ih =>
    rw [List.foldl_cons] at hm
    rcases ih (aggregateStep acc r) hm with h | h
    · unfold aggregateStep at h
      by_cases hany : ∃ x ∈ acc, x.rule_id = r.id
      · rw [if_pos (by simpa using hany), bumpCount_map_rule_id] at h
        exact Or.inl h
      · rw [if_neg (by simpa using hany), List.map_append] at h
        rcases List.mem_append.mp h with h1 | h1
        · exact Or.inl h1
        · simp only [List.map_cons, List.map_nil, List.mem_singleton, mkMatched] at h1
          exact Or.inr (by simp [h1])
    · exact Or.inr (List.mem_cons_of_mem _ h)

lemma mem_aggregate_rule_id {l : List Rule} {m : MatchedRule}
    (hm : m ∈ aggregate l) : m.rule_id ∈ l.map (fun r => r.id) := by
  rcases mem_foldl_rule_id l [] hm with h | h
  · simp at h
  · exact h

lemma countOf_eq_match_count {agg : List MatchedRule}
    (hnd : (agg.map (fun m => m.rule_id)).Nodup) {m : MatchedRule}
    (hm : m ∈ agg) : countOf agg m.rule_id = m.match_count := by
  induction agg with
  | nil => simp at hm
  | cons a as ih =>
    rw [List.map_cons, List.nodup_cons] at hnd
    rcases List.mem_cons.mp hm with h | h
    · rw [countOf_cons, h, if_pos rfl]
    · have hane : a.rule_id ≠ m.rule_id := by
        intro hc
        exact hnd.1 (hc ▸ List.mem_map_of_mem _ h)
      rw [countOf_cons, if_neg hane]
      exact ih hnd.2 h

lemma countP_le_one_of_nodup_map {l : List Rule}
    (h : (l.map (fun r => r.id)).Nodup) (x : Int) :
    l.countP (fun r => r.id = x) ≤ 1 := by
  induction l with
  | nil => simp
  | cons r rs ih =>
    rw [List.map_cons, List.nodup_cons] at h
    rw [List.countP_cons]
    by_cases hr : r.id = x
    · have hzero : rs.countP (fun r => decide (r.id = x)) = 0 := by
        rw [List.countP_eq_zero]
        intro b hb
        simp only [decide_eq_true_eq]
        intro hc
        exact h.1 (by rw [hr, ← hc]; exact List.mem_map_of_mem _ hb)
      simp [hr, hzero]
    · simp only [hr, decide_eq_false_iff_not, if_false]
      simp only [decide_eq_true_eq, hr, if_false, Nat.add_zero]
      exact Nat.le_trans (ih h.2) (le_refl 1)

/-! ## C9 -/

/-- C9: with distinct rule ids in the store, the keyword/phrase phase
selects only active rules of indexed pattern types, the regex phase only
active regex rules, no rule can appear in both phases, every matched rule
returned by search_content has match_count exactly 1, and the frequency
penalty of the search result is 0. -/
theorem C9_search_match_count_one (db : List Rule) (content : String)
    (fts : String → String → Bool) (test : String → String → Option Bool)
    (hids : (db.map (fun r => r.id)).Nodup) :
    (∀ r ∈ keyword_matches db content fts, r.is_active = true
      ∧ (r.pattern_type = PatternType.keyword ∨ r.pattern_type = PatternType.phrase))
    ∧ (∀ r ∈ (regexEval (regex_rules db) content test).1, r.is_active = true
        ∧ r.pattern_type = PatternType.regex)
    ∧ (∀ m ∈ search_content db content fts test, m.match_count = 1)
    ∧ frequency_penalty (search_content db content fts test) = 0 := by
  have hkw : ∀ r ∈ keyword_matches db content fts, r.is_active = true
      ∧ (r.pattern_type = PatternType.keyword ∨ r.pattern_type = PatternType.phrase) := by
    intro r hr
    have := List.mem_filter.mp hr
    simp only [decide_eq_true_eq] at this
    exact ⟨this.2.1, this.2.2.1⟩
  have hrx : ∀ r ∈ (regexEval (regex_rules db) content test).1,
      r.is_active = true ∧ r.pattern_type = PatternType.regex := by
    intro r hr
    rw [regexEval_matches] at hr
    have h1 := (List.mem_filter.mp hr).1
    have := List.mem_filter.mp h1
    simp only [decide_eq_true_eq] at this
    exact this.2
  have hkw_sub : ∀ r ∈ keyword_matches db content fts, r ∈ db :=
    fun r hr => (List.mem_filter.mp hr).1
  have hrx_sub : ∀ r ∈ (regexEval (regex_rules db) content test).1, r ∈ db := by
    intro r hr
    rw [regexEval_matches] at hr
    exact (List.mem_filter.mp (List.mem_filter.mp hr).1).1
  have hone : ∀ m ∈ search_content db content fts test, m.match_count = 1 := by
    intro m hm
    set combined := keyword_matches db content fts
      ++ (regexEval (regex_rules db) content test).1 with hcomb
    have hcnt : countOf (aggregate combined) m.rule_id = m.match_count :=
      countOf_eq_match_count (aggregate_nodup combined) hm
    have hval : countOf (aggregate combined) m.rule_id
        = (combined.countP (fun r => r.id = m.rule_id) : Int) := by
      rw [aggregate, countOf_foldl, countOf_nil]
      ring
    have hpos : 0 < combined.countP (fun r => r.id = m.rule_id) := by
      rw [List.countP_pos_iff]
      have := mem_aggregate_rule_id hm
      rcases List.mem_map.mp this with ⟨r, hr, hid⟩
      exact ⟨r, hr, by simp [hid]⟩
    have hle : combined.countP (fun r => r.id = m.rule_id) ≤ 1 := by
      rw [hcomb, List.countP_append]
      by_cases hkzero :
          (keyword_matches db content fts).countP (fun r => r.id = m.rule_id) = 0
      · rw [hkzero, Nat.zero_add]
        calc (regexEval (regex_rules db) content test).1.countP
              (fun r => r.id = m.rule_id)
            ≤ db.countP (fun r => r.id = m.rule_id) := by
              rw [regexEval_matches]
              exact ((List.filter_sublist _).trans (List.filter_sublist _)).countP_le _
          _ ≤ 1 := countP_le_one_of_nodup_map hids m.rule_id
      · have hk : ∃ r ∈ keyword_matches db content fts, r.id = m.rule_id := by
          have := Nat.pos_of_ne_zero hkzero
          rw [List.countP_pos_iff] at this
          simpa using this
        have hrzero :
            (regexEval (regex_rules db) content test).1.countP
              (fun r => r.id = m.rule_id) = 0 := by
          rw [List.countP_eq_zero]
          intro b hb
          simp only [decide_eq_true_eq]
          intro hc
          rcases hk with ⟨a, ha, haid⟩
          have hae : a = b := List.inj_on_of_nodup_map hids
            (hkw_sub a ha) (hrx_sub b hb) (by rw [haid, hc])
          have h1 := (hkw a ha).2
          have h2 := (hrx b hb).2
          rw [hae] at h1
          rcases h1 with h1 | h1 <;> rw [h1] at h2 <;> exact PatternType.noConfusion h2
        rw [hrzero, Nat.add_zero]
        calc (keyword_matches db content fts).countP (fun r => r.id = m.rule_id)
            ≤ db.countP (fun r => r.id = m.rule_id) :=
              (List.filter_sublist _).countP_le _
          _ ≤ 1 := countP_le_one_of_nodup_map hids m.rule_id
    have hP : combined.countP (fun r => r.id = m.rule_id) = 1 := by omega
    rw [search_content] at hm
    have : m.match_count = (1 : Int) := by
      rw [← hcnt, hval, hP]
      rfl
    exact this
  refine ⟨hkw, hrx, hone, ?_⟩
  apply List.sum_eq_zero
  intro x hx
  rcases List.mem_map.mp hx with ⟨m, hm, hmx⟩
  rw [← hmx, hone m hm]
  norm_num

/-- C9 witness: on a concrete store of two distinct-id rules with both
phase oracles matching, the search result carries zero frequency penalty
and all match counts are 1. -/
theorem C9_search_match_count_one_witness :
    (∀ m ∈ search_content [ruleA, ruleB] "post" (fun _ _ => true)
        (fun _ _ => some true), m.match_count = 1)
      ∧ frequency_penalty (search_content [ruleA, ruleB] "post"
          (fun _ _ => true) (fun _ _ => some true)) = 0 :=
  ⟨(C9_search_match_count_one [ruleA, ruleB] "post" (fun _ _ => true)
      (fun _ _ => some true) (by simp [ruleA, ruleB])).2.2.1,
    (C9_search_match_count_one [ruleA, ruleB] "post" (fun _ _ => true)
      (fun _ _ => some true) (by simp [ruleA, ruleB])).2.2.2⟩

/-! ## Explanation synthesis: spec-side definitions and lemmas -/

/-- The distinct categories of the matches in first-seen order, written
independently of the grouping loop: a right fold that keeps the earliest
occurrence of each category. -/
def specCategories (l : List MatchedRule) : List String :=
  l.foldr (fun r ks => r.category :: ks.filter (fun c => c ≠ r.category)) []

lemma specCategories_cons (r : MatchedRule) (t : List MatchedRule) :
    specCategories (r :: t)
      = r.category :: (specCategories t).filter (fun c => c ≠ r.category) :=
  rfl

lemma foldl_insertKey_eq (l : List MatchedRule) (ks : List String) :
    l.foldl (fun ks r => insertKey ks r.category) ks
      = ks ++ (specCategories l).filter (fun c => c ∉ ks) := by
  induction l generalizing ks with
  | nil => simp [specCategories]
  | cons r t ih =>
    rw [List.foldl_cons, ih (insertKey ks r.category), specCategories_cons]
    by_cases hmem : r.category ∈ ks
    · rw [insertKey, if_pos hmem,
        List.filter_cons_of_neg (by simp [hmem]), List.filter_filter]
      congr 1
      apply List.filter_congr
      intro c hc
      by_cases hcks : c ∈ ks
      · simp [hcks]
      · have hne : c ≠ r.category := fun hceq => hcks (hceq ▸ hmem)
        simp [hcks, hne]
    · rw [insertKey, if_neg hmem,
        List.filter_cons_of_pos (by simp [hmem]), List.filter_filter,
        List.append_assoc, List.singleton_append]
      congr 2
      apply List.filter_congr
      intro c hc
      by_cases hcks : c ∈ ks
      · have h1 : c ∈ ks ++ [r.category] := List.mem_append.mpr (Or.inl hcks)
        simp [hcks, h1]
      · by_cases hcr : c = r.category
        · have h1 : c ∈ ks ++ [r.category] := by simp [hcr]
          simp [h1, hcr]
        · have h1 : c ∉ ks ++ [r.category] := by
            intro hc1
            rcases List.mem_append.mp hc1 with h | h
            · exact hcks h
            · exact hcr (List.mem_singleton.mp h)
          simp [h1, hcr, hcks]

lemma categoryKeys_eq_specCategories (l : List MatchedRule) :
    categoryKeys l = specCategories l := by
  rw [categoryKeys, foldl_insertKey_eq l []]
  simp

lemma mem_specCategories (l : List MatchedRule) (a : String) :
    a ∈ specCategories l ↔ a ∈ l.map (fun r => r.category) := by
  induction l with
  | nil => simp [specCategories]
  | cons r t ih =>
    rw [specCategories_cons]
    constructor
    · intro h
      rcases List.mem_cons.mp h with h | h
      · simp [h]
      · have := List.mem_filter.mp h
        simp only [List.map_cons, List.mem_cons]
        exact Or.inr (ih.mp this.1)
    · intro h
      simp only [List.map_cons, List.mem_cons] at h
      rcases h with h | h
      · exact h ▸ List.mem_cons_self _ _
      · by_cases hra : a = r.category
        · exact hra ▸ List.mem_cons_self _ _
        · exact List.mem_cons_of_mem _
            (List.mem_filter.mpr ⟨ih.mpr h, by simp [hra]⟩)

lemma all_category_eq {l : List MatchedRule} {c : String}
    (h : categoryKeys l = [c]) : ∀ r ∈ l, r.category = c := by
  intro r hr
  have hmem : r.category ∈ categoryKeys l := by
    rw [categoryKeys_eq_specCategories, mem_specCategories]
    exact List.mem_map_of_mem _ hr
  rw [h] at hmem
  exact List.mem_singleton.mp hmem

lemma categoryRules_eq_self {l : List MatchedRule} {c : String}
    (h : ∀ r ∈ l, r.category = c) : categoryRules l c = l := by
  rw [categoryRules, List.filter_eq_self]
  intro r hr
  simp [h r hr]

lemma intercalate_three (x y z : String) :
    String.intercalate " " [x, y, z] = x ++ " " ++ y ++ " " ++ z :=
  rfl

/-- The explanation synthesis exactly as the specification claim words
it: the fixed safe message for no matches; for exactly one distinct
category either the single-rule citation (description falling back to
pattern) or the rule count, for several categories the category list;
then the score-tier sentence and the action closing sentence. -/
def spec_generate_explanation (l : List MatchedRule) (score : Rat)
    (action : Action) : String :=
  if l = [] then
    "Content appears to be safe and follows community guidelines."
  else
    let cats := specCategories l
    let headline :=
      if cats.length = 1 then
        if l.length = 1 then
          "Content flagged for " ++ cats.headD "" ++ ": "
            ++ descriptionOrPattern (l.headD default)
        else
          "Content flagged for multiple " ++ cats.headD "" ++ " violations ("
            ++ toString l.length ++ " rules matched)"
      else
        "Content flagged for multiple violation categories: "
          ++ String.intercalate ", " cats
    headline ++ " " ++ severitySentence score ++ " " ++ actionSentence action

/-! ## C8 -/

/-- C8: the explanation generator is the deterministic function the
specification describes: safe message on no matches; one category with
one rule cites category and description (pattern fallback), one category
with several rules cites the rule count, several categories lists the
category names; followed by the score-tier sentence and the
action-specific closing sentence. -/
theorem C8_explanation_spec (l : List MatchedRule) (score : Rat) (action : Action) :
    generate_explanation l score action = spec_generate_explanation l score action := by
  by_cases hl : l = []
  · rw [generate_explanation, spec_generate_explanation, if_pos hl, if_pos hl]
  · rw [generate_explanation, spec_generate_explanation, if_neg hl, if_neg hl]
    dsimp only
    rw [intercalate_three]
    rw [categoryKeys_eq_specCategories]
    by_cases hlen : (specCategories l).length = 1
    · rcases List.length_eq_one.mp hlen with ⟨c, hc⟩
      have hall : ∀ r ∈ l, r.category = c :=
        all_category_eq (by rw [categoryKeys_eq_specCategories, hc])
      have hrules : categoryRules l ((specCategories l).headD "") = l := by
        rw [hc]
        exact categoryRules_eq_self hall
      rw [if_pos hlen, if_pos hlen, hrules]
    · rw [if_neg hlen, if_neg hlen]

end Moderation
